import Mathlib

/-!
A verification development for the go-sched background-job scheduler.

The Go sources are shallowly embedded: timestamps (Go `time.Time`) become
integer instants, nullable timestamps (`*time.Time`) become `Option Int`,
and each Go method becomes a pure Lean function that takes the value of
`time.Now()` as an explicit `now` argument where the source reads the
clock.  Stateful store implementations become functions from the stored
job collection (a list, standing for the map or collection contents) to
an `Except` value mirroring Go `error` returns.
-/

/-- The job record (job.go).  `visibleAfter` is the lease expiry
(`*time.Time`, `nil` = unset); `processedAt` is the completion time. -/
structure Job (T : Type) where
  id : String
  status : String
  processAfter : Int
  visibleAfter : Option Int
  processedAt : Option Int
  payload : T
deriving Repr, DecidableEq

variable {T : Type}

/-- Job.IsVisible (job.go): false unless status is "pending"; true when no
lease is set; otherwise true iff time.Now() is after the lease expiry. -/
def Job.IsVisible (now : Int) (j : Job T) : Bool :=
  if j.status = "pending" then
    match j.visibleAfter with
    | none => true
    | some va => decide (va < now)
  else false

/-- Job.MakeInvisible (job.go): set the lease expiry to now + timeout. -/
def Job.MakeInvisible (now visibilityTimeout : Int) (j : Job T) : Job T :=
  { j with visibleAfter := some (now + visibilityTimeout) }

/-- Job.MakeVisible (job.go): clear the lease. -/
def Job.MakeVisible (j : Job T) : Job T :=
  { j with visibleAfter := none }

/-- Job.MakeFailed (job.go): set status to "failed" and clear the lease. -/
def Job.MakeFailed (j : Job T) : Job T :=
  Job.MakeVisible { j with status := "failed" }

/-- Job.MakeCompleted (job.go): set status to "completed", record the
completion time, and clear the lease. -/
def Job.MakeCompleted (now : Int) (j : Job T) : Job T :=
  Job.MakeVisible { j with status := "completed", processedAt := some now }

/-! ## Store implementations -/

/-- The loop body of MemoryStore.FetchPendingJobs (storage/memory.go): append
each stored job whose processAfter is before `after` and whose status is
"pending", stopping as soon as the accumulator reaches `limit`.  The list
argument is the map contents in iteration order. -/
def MemoryStore.FetchLoop (after limit : Int) :
    List (Job T) → List (Job T) → List (Job T)
  | [], acc => acc
  | e :: rest, acc =>
    let acc2 := if e.processAfter < after ∧ e.status = "pending" then acc ++ [e] else acc
    if limit ≤ (acc2.length : Int) then acc2
    else MemoryStore.FetchLoop after limit rest acc2

/-- MemoryStore.FetchPendingJobs (storage/memory.go). -/
def MemoryStore.FetchPendingJobs (after limit : Int) (jobs : List (Job T)) :
    List (Job T) :=
  MemoryStore.FetchLoop after limit jobs []

/-- MemoryStore.UpdateJob (storage/memory.go): error when the id is not in
the map; otherwise copy status and processedAt onto the stored job (the
source copies exactly these two fields). -/
def MemoryStore.UpdateJob (jobs : List (Job T)) (job : Job T) :
    Except String (List (Job T)) :=
  if jobs.any fun e => e.id == job.id then
    Except.ok (jobs.map fun e =>
      if e.id = job.id then
        { e with status := job.status, processedAt := job.processedAt }
      else e)
  else Except.error ("job not found: " ++ job.id)

/-- MongoStore.FetchPendingJobs (storage/mongo/mongo.go): the Find filter
keeps documents with status "pending", processAfter strictly before `after`,
and visibleAfter missing, null, or strictly before time.Now(); the limit
option is applied only when limit > 0. -/
def MongoStore.FetchPendingJobs (after now limit : Int) (docs : List (Job T)) :
    List (Job T) :=
  let matching := docs.filter fun j =>
    j.status == "pending" && decide (j.processAfter < after) &&
      (match j.visibleAfter with
       | none => true
       | some va => decide (va < now))
  if 0 < limit then matching.take limit.toNat else matching

/-- MongoStore.UpdateJob (storage/mongo/mongo.go): error only on an empty
id; otherwise UpdateOne with filter _id = job.Id sets status, visibleAfter
and processedAt on the matching document, and reports success even when no
document matches. -/
def MongoStore.UpdateJob (docs : List (Job T)) (job : Job T) :
    Except String (List (Job T)) :=
  if job.id = "" then Except.error "job Id cannot be empty"
  else Except.ok (docs.map fun d =>
    if d.id = job.id then
      { d with status := job.status, visibleAfter := job.visibleAfter,
               processedAt := job.processedAt }
    else d)

/-! ## The resilient-call wrapper -/

/-- Modelled from the spec: the retry-delay schedule of the resilient-call
wrapper (spec section 4.2); the concrete backoff implementation is an
external library whose code is not among the repository sources.  Per the
spec the wait before the first retry is the starting delay d0, each further
wait grows by factor 2, and every wait is capped at dmax.  `retryDelay d0
dmax n` is the delay before the nth retry (1-based; index 0 is unused). -/
def retryDelay (d0 dmax : Nat) : Nat → Nat
  | 0 => 0
  | 1 => min d0 dmax
  | n + 2 => min (2 * retryDelay d0 dmax (n + 1)) dmax

/-! ## Dispatcher -/

/-- The dispatch loop body of Scheduler.Run (scheduler.go): for each fetched
entry, set its lease with MakeInvisible, attempt to persist it through the
retry wrapper — logging, but not skipping the entry, when the attempt fails
— and push the leased entry onto the hand-off channel.  `persistOk` tells
whether the retried UpdateJob eventually succeeded for a given entry.
Returns (jobs pushed onto the channel, error-log lines). -/
def Scheduler.dispatchBatch (now visibilityTimeout : Int)
    (persistOk : Job T → Bool) : List (Job T) → List (Job T) × List String
  | [] => ([], [])
  | e :: rest =>
    let e2 := e.MakeInvisible now visibilityTimeout
    let logs := if persistOk e2 then []
      else ["failed to make job invisible after retries: " ++ e.id]
    let r := Scheduler.dispatchBatch now visibilityTimeout persistOk rest
    (e2 :: r.1, logs ++ r.2)

/-! ## Worker -/

/-- The status transition a worker applies after the handler returns
(Scheduler.worker, scheduler.go): MakeFailed on a handler error, otherwise
MakeCompleted at the completion time. -/
def Scheduler.workerOutcome (now : Int) (handlerErr : Bool) (j : Job T) : Job T :=
  if handlerErr then j.MakeFailed else j.MakeCompleted now

/-- Observable steps of a worker handling one job. -/
inductive WorkerEv (T : Type) where
  | transitioned (j : Job T)
  | persistAttempted (j : Job T)
deriving Repr, DecidableEq

/-- Scheduler.worker body for one job (scheduler.go): first apply the
status transition, then attempt to persist the transitioned job through
the retry wrapper. -/
def Scheduler.workerJobTrace (now : Int) (handlerErr : Bool) (j : Job T) :
    List (WorkerEv T) :=
  let j2 := Scheduler.workerOutcome now handlerErr j
  [WorkerEv.transitioned j2, WorkerEv.persistAttempted j2]

/-! ## Shutdown -/

/-- Observable events of the shutdown branch of Scheduler.Run. -/
inductive SchedulerEv (T : Type) where
  | chanClosed
  | leaseCleared (j : Job T)
  | updateAttempted (j : Job T)
  | jobProcessed (j : Job T)
  | workerExited (i : Nat)
  | workersJoined
  | doneClosed
deriving Repr, DecidableEq

/-- The shutdown drain loop of Scheduler.Run (scheduler.go): after the
channel is closed, each job the loop receives has its lease cleared with
MakeVisible and an UpdateJob attempt made through the retry wrapper (a
failed attempt is logged and the loop continues).  Returns the jobs left
on the channel after the loop (the loop runs until the closed channel is
empty) together with the events it performs, in order. -/
def Scheduler.shutdownDrain : List (Job T) → List (Job T) × List (SchedulerEv T)
  | [] => ([], [])
  | j :: rest =>
    let j2 := j.MakeVisible
    let r := Scheduler.shutdownDrain rest
    (r.1, SchedulerEv.leaseCleared j2 :: SchedulerEv.updateAttempted j2 :: r.2)

/-- The concurrent worker loops during shutdown (Scheduler.worker): each job
a worker receives from the closing channel is still processed normally —
handler, status transition, persistence attempt.  `handlerErr` tells whether
the handler fails on a given job. -/
def Scheduler.workerDrain (now : Int) (handlerErr : Job T → Bool) :
    List (Job T) → List (Job T) × List (SchedulerEv T)
  | [] => ([], [])
  | j :: rest =>
    let j2 := Scheduler.workerOutcome now (handlerErr j) j
    let r := Scheduler.workerDrain now handlerErr rest
    (r.1, SchedulerEv.jobProcessed j2 :: SchedulerEv.updateAttempted j2 :: r.2)

/-- The shutdown branch of Scheduler.Run (scheduler.go), sequentialised:
on cancellation the channel is closed; the queued jobs are split between
the shutdown drain loop (portion `S`) and the workers (portion `W`) — the
split is a parameter because the Go runtime decides it; the drain loop then
completes, the workers finish and exit, wg.Wait returns, and the deferred
close of the done channel fires last.  Returns the jobs left on the channel
and the full event trace. -/
def Scheduler.shutdownRun (workerCount : Nat) (now : Int)
    (handlerErr : Job T → Bool) (S W : List (Job T)) :
    List (Job T) × List (SchedulerEv T) :=
  let ds := Scheduler.shutdownDrain S
  let dw := Scheduler.workerDrain now handlerErr W
  (ds.1 ++ dw.1,
   SchedulerEv.chanClosed :: (ds.2 ++ dw.2
     ++ (List.range workerCount).map SchedulerEv.workerExited
     ++ [SchedulerEv.workersJoined, SchedulerEv.doneClosed]))

/-! ## Claims about the job state machine -/

/-- C1: Job.IsVisible returns true iff the status is "pending" and the
lease is unset or strictly in the past relative to the current time; in
particular it returns false for every non-pending status, regardless of
visibleAfter. -/
theorem Job.isVisible_iff_pending_and_lease_expired (now : Int) (j : Job T) :
    (j.IsVisible now = true ↔
      j.status = "pending" ∧
        (j.visibleAfter = none ∨ ∃ va, j.visibleAfter = some va ∧ va < now)) ∧
    (j.status ≠ "pending" → j.IsVisible now = false) := by
  constructor
  · by_cases h : j.status = "pending"
    · cases hva : j.visibleAfter with
      | none => simp [Job.IsVisible, h, hva]
      | some va => simp [Job.IsVisible, h, hva]
    · simp [Job.IsVisible, h]
  · intro h
    simp [Job.IsVisible, h]

/-- Witness for C1 at a concrete terminal job. -/
theorem Job.isVisible_iff_witness :
    (Job.mk "a" "completed" 0 none none () : Job Unit).IsVisible 5 = false :=
  (Job.isVisible_iff_pending_and_lease_expired 5
    (Job.mk "a" "completed" 0 none none ())).2 (by decide)

/-- C4: the terminal transitions clear the lease: MakeCompleted yields
status "completed" with visibleAfter unset, and MakeFailed yields status
"failed" with visibleAfter unset. -/
theorem Job.terminal_states_clear_lease (now : Int) (j : Job T) :
    (j.MakeCompleted now).status = "completed" ∧
    (j.MakeCompleted now).visibleAfter = none ∧
    j.MakeFailed.status = "failed" ∧
    j.MakeFailed.visibleAfter = none := by
  simp [Job.MakeCompleted, Job.MakeFailed, Job.MakeVisible]

/-- C10: MakeInvisible performs no status check: it sets visibleAfter to
now + timeout and leaves the status (and processedAt) unchanged, whatever
the status is — so a lease can be placed on a terminal job. -/
theorem Job.makeInvisible_ignores_status (now timeout : Int) (j : Job T) :
    (j.MakeInvisible now timeout).visibleAfter = some (now + timeout) ∧
    (j.MakeInvisible now timeout).status = j.status ∧
    (j.MakeInvisible now timeout).processedAt = j.processedAt := by
  simp [Job.MakeInvisible]

/-! ## Claims about the worker -/

/-- The job of the failing-handler scenario. -/
def jobX : Job Unit :=
  { id := "X", status := "pending", processAfter := 0,
    visibleAfter := some 40, processedAt := none, payload := () }

/-- C5 counterexample: the handler fails for job "X" at time 10; the worker
transition (Job.MakeFailed) yields status "failed" but leaves processedAt
unset, contradicting the claim that processedAt is set to the completion
time. -/
theorem Scheduler.workerOutcome_failure_leaves_processedAt_unset :
    (Scheduler.workerOutcome 10 true jobX).status = "failed" ∧
    (Scheduler.workerOutcome 10 true jobX).processedAt = none := by
  constructor <;> rfl

/-- C5 amended: on a handler error the worker transitions the job to status
"failed" with the lease cleared and processedAt left unchanged (the code
sets processedAt only on completion), before attempting to persist the
outcome. -/
theorem Scheduler.workerOutcome_failure_spec (now : Int) (j : Job T) :
    (Scheduler.workerOutcome now true j).status = "failed" ∧
    (Scheduler.workerOutcome now true j).visibleAfter = none ∧
    (Scheduler.workerOutcome now true j).processedAt = j.processedAt ∧
    Scheduler.workerJobTrace now true j =
      [WorkerEv.transitioned (Scheduler.workerOutcome now true j),
       WorkerEv.persistAttempted (Scheduler.workerOutcome now true j)] := by
  refine ⟨?_, ?_, ?_, rfl⟩ <;>
    simp [Scheduler.workerOutcome, Job.MakeFailed, Job.MakeVisible]

/-! ## Claims about the dispatcher -/

/-- The jobs pushed by the dispatch loop are exactly the fetched entries,
leased, in order, whatever the persistence outcomes are. -/
theorem Scheduler.dispatchBatch_fst (now timeout : Int)
    (persistOk : Job T → Bool) (entries : List (Job T)) :
    (Scheduler.dispatchBatch now timeout persistOk entries).1 =
      entries.map (Job.MakeInvisible now timeout) := by
  induction entries with
  | nil => rfl
  | cons e rest ih => simp [Scheduler.dispatchBatch, ih]

/-- C7: every job returned by a successful fetch is pushed onto the
hand-off queue exactly once — the pushed list is the fetched list, leased,
position by position — and the pushed list does not depend on whether the
lease-persistence calls succeed. -/
theorem Scheduler.dispatchBatch_pushes_each_entry_once (now timeout : Int)
    (persistOk : Job T → Bool) (entries : List (Job T)) :
    (Scheduler.dispatchBatch now timeout persistOk entries).1 =
      entries.map (Job.MakeInvisible now timeout) ∧
    (Scheduler.dispatchBatch now timeout persistOk entries).1.length =
      entries.length ∧
    ∀ persistOk2 : Job T → Bool,
      (Scheduler.dispatchBatch now timeout persistOk2 entries).1 =
        (Scheduler.dispatchBatch now timeout persistOk entries).1 := by
  refine ⟨Scheduler.dispatchBatch_fst now timeout persistOk entries, ?_, ?_⟩
  · rw [Scheduler.dispatchBatch_fst now timeout persistOk entries]
    exact List.length_map entries (Job.MakeInvisible now timeout)
  · intro persistOk2
    rw [Scheduler.dispatchBatch_fst now timeout persistOk entries,
      Scheduler.dispatchBatch_fst now timeout persistOk2 entries]

/-! ## Claims about the resilient-call wrapper -/

/-- C9: after N consecutive failures, the delay before the Nth retry is
min(d0 * 2^(N-1), dmax). -/
theorem retryDelay_eq_min_pow (d0 dmax : Nat) :
    ∀ N : Nat, 1 ≤ N → retryDelay d0 dmax N = min (d0 * 2 ^ (N - 1)) dmax := by
  intro N hN
  induction N with
  | zero => omega
  | succ n ih =>
    cases n with
    | zero => simp [retryDelay]
    | succ m =>
      have h := ih (Nat.le_add_left 1 m)
      have h2 : retryDelay d0 dmax (m + 2) =
          min (2 * retryDelay d0 dmax (m + 1)) dmax := rfl
      rw [h2, h]
      have ha : d0 * 2 ^ (m + 2 - 1) = 2 * (d0 * 2 ^ (m + 1 - 1)) := by
        have hm : m + 2 - 1 = (m + 1 - 1) + 1 := by omega
        rw [hm, pow_succ]; ring
      rw [ha]
      generalize d0 * 2 ^ (m + 1 - 1) = a
      omega

/-- Witness for C9 at the documented parameters (d0 = 100ms, dmax = 5s,
third retry). -/
theorem retryDelay_eq_min_pow_witness :
    retryDelay 100 5000 3 = min (100 * 2 ^ (3 - 1)) 5000 :=
  retryDelay_eq_min_pow 100 5000 3 (by decide)

/-! ## Claims about the stores -/

/-- Every job the memory fetch loop returns satisfies the loop filter,
provided the accumulator already does. -/
theorem MemoryStore.fetchLoop_sound (after limit : Int) :
    ∀ (l acc : List (Job T)),
      (∀ j ∈ acc, j.processAfter < after ∧ j.status = "pending") →
      ∀ j ∈ MemoryStore.FetchLoop after limit l acc,
        j.processAfter < after ∧ j.status = "pending" := by
  intro l
  induction l with
  | nil =>
    intro acc hacc j hj
    simp only [MemoryStore.FetchLoop] at hj
    exact hacc j hj
  | cons e rest ih =>
    intro acc hacc j hj
    simp only [MemoryStore.FetchLoop] at hj
    by_cases hc : e.processAfter < after ∧ e.status = "pending"
    · rw [if_pos hc] at hj
      have hmem : ∀ x ∈ acc ++ [e], x.processAfter < after ∧ x.status = "pending" := by
        intro x hx
        rcases List.mem_append.mp hx with h | h
        · exact hacc x h
        · rw [List.mem_singleton.mp h]
          exact hc
      by_cases hl : limit ≤ (((acc ++ [e]).length : Nat) : Int)
      · rw [if_pos hl] at hj
        exact hmem j hj
      · rw [if_neg hl] at hj
        exact ih (acc ++ [e]) hmem j hj
    · rw [if_neg hc] at hj
      by_cases hl : limit ≤ ((acc.length : Nat) : Int)
      · rw [if_pos hl] at hj
        exact hacc j hj
      · rw [if_neg hl] at hj
        exact ih acc hacc j hj

/-- The memory fetch loop never grows the result past the limit, provided
the accumulator is still strictly below it. -/
theorem MemoryStore.fetchLoop_length (after limit : Int) :
    ∀ (l acc : List (Job T)), ((acc.length : Nat) : Int) < limit →
      (((MemoryStore.FetchLoop after limit l acc).length : Nat) : Int) ≤ limit := by
  intro l
  induction l with
  | nil =>
    intro acc hacc
    simp only [MemoryStore.FetchLoop]
    omega
  | cons e rest ih =>
    intro acc hacc
    simp only [MemoryStore.FetchLoop]
    by_cases hc : e.processAfter < after ∧ e.status = "pending"
    · rw [if_pos hc]
      have hlen : (acc ++ [e]).length = acc.length + 1 := by simp
      by_cases hl : limit ≤ (((acc ++ [e]).length : Nat) : Int)
      · rw [if_pos hl]
        omega
      · rw [if_neg hl]
        exact ih (acc ++ [e]) (by omega)
    · rw [if_neg hc]
      by_cases hl : limit ≤ ((acc.length : Nat) : Int)
      · rw [if_pos hl]
        omega
      · rw [if_neg hl]
        exact ih acc hacc

/-- C2 amended: with a positive limit, both fetch implementations return at
most `limit` jobs whose status is "pending" and whose processAfter is
before `after`; the MongoDB fetch moreover returns only visible jobs
(lease unset or expired), while the in-memory fetch does not filter on
visibleAfter, so its results may still carry an active lease. -/
theorem FetchPendingJobs_limit_and_filter (after now limit : Int)
    (jobs docs : List (Job T)) (hlim : 0 < limit) :
    (((MemoryStore.FetchPendingJobs after limit jobs).length : Nat) : Int) ≤ limit ∧
    (∀ j ∈ MemoryStore.FetchPendingJobs after limit jobs,
      j.status = "pending" ∧ j.processAfter < after) ∧
    (((MongoStore.FetchPendingJobs after now limit docs).length : Nat) : Int) ≤ limit ∧
    (∀ j ∈ MongoStore.FetchPendingJobs after now limit docs,
      j.IsVisible now = true ∧ j.processAfter < after) := by
  refine ⟨?_, ?_, ?_, ?_⟩
  · exact MemoryStore.fetchLoop_length after limit jobs [] (by simpa using hlim)
  · intro j hj
    have h := MemoryStore.fetchLoop_sound after limit jobs []
      (by intro x hx; cases hx) j hj
    exact ⟨h.2, h.1⟩
  · simp only [MongoStore.FetchPendingJobs]
    rw [if_pos hlim]
    have h := List.length_take_le limit.toNat
      (docs.filter fun j =>
        j.status == "pending" && decide (j.processAfter < after) &&
          (match j.visibleAfter with
           | none => true
           | some va => decide (va < now)))
    omega
  · intro j hj
    simp only [MongoStore.FetchPendingJobs] at hj
    rw [if_pos hlim] at hj
    have hj2 := List.take_subset _ _ hj
    have hpred := (List.mem_filter.mp hj2).2
    simp only [Bool.and_eq_true, beq_iff_eq, decide_eq_true_eq] at hpred
    obtain ⟨⟨hstatus, hproc⟩, hvis⟩ := hpred
    refine ⟨?_, hproc⟩
    cases hva : j.visibleAfter with
    | none => simp [Job.IsVisible, hstatus, hva]
    | some va =>
      rw [hva] at hvis
      simp only [decide_eq_true_eq] at hvis
      simp [Job.IsVisible, hstatus, hva, hvis]

/-- A visible pending job, used in concrete store scenarios. -/
def samplePendingJob : Job Unit :=
  { id := "p", status := "pending", processAfter := 0,
    visibleAfter := none, processedAt := none, payload := () }

/-- Witness for C2 at a one-job store with limit 2. -/
theorem FetchPendingJobs_limit_and_filter_witness :
    (((MemoryStore.FetchPendingJobs 5 2 [samplePendingJob]).length : Nat) : Int) ≤ 2 ∧
    ∀ j ∈ MongoStore.FetchPendingJobs 5 5 2 [samplePendingJob],
      j.IsVisible 5 = true ∧ j.processAfter < 5 := by
  have h := FetchPendingJobs_limit_and_filter 5 5 2
    [samplePendingJob] [samplePendingJob] (by decide)
  exact ⟨h.1, h.2.2.2⟩

/-- A pending job whose lease is still active at the fetch instant. -/
def leasedJob : Job Unit :=
  { id := "b", status := "pending", processAfter := 0,
    visibleAfter := some 100, processedAt := none, payload := () }

/-- C2 counterexample: at time 5 the in-memory fetch returns a pending job
whose lease only expires at 100, i.e. a job that is not visible — the
in-memory FetchPendingJobs does not check visibleAfter at all. -/
theorem MemoryStore.fetch_returns_invisible_job :
    MemoryStore.FetchPendingJobs 5 1 [leasedJob] = [leasedJob] ∧
    leasedJob.IsVisible 5 = false := by
  constructor <;> rfl

/-- A stored job holding an active lease. -/
def storedJob : Job Unit :=
  { id := "a", status := "pending", processAfter := 0,
    visibleAfter := some 50, processedAt := none, payload := () }

/-- An update for the same id that clears the lease and completes the job. -/
def updatedJob : Job Unit :=
  { id := "a", status := "completed", processAfter := 0,
    visibleAfter := none, processedAt := some 7, payload := () }

/-- C6 counterexample: the in-memory UpdateJob copies only status and
processedAt, so a stored lease of 50 survives an update whose visibleAfter
is unset; and the MongoDB UpdateJob reports success for an id absent from
the collection instead of failing. -/
theorem UpdateJob_partial_persist_and_silent_miss :
    MemoryStore.UpdateJob [storedJob] updatedJob =
      Except.ok [{ storedJob with status := "completed", processedAt := some 7 }] ∧
    ({ storedJob with
        status := "completed", processedAt := some 7 } : Job Unit).visibleAfter =
      some 50 ∧
    updatedJob.visibleAfter = none ∧
    MongoStore.UpdateJob ([] : List (Job Unit)) updatedJob = Except.ok [] := by
  refine ⟨?_, rfl, rfl, ?_⟩ <;> rfl

/-- C6 amended: for an existing job id the in-memory UpdateJob persists
status and processedAt (but not visibleAfter) and fails with an error when
the id is unknown; the MongoDB UpdateJob persists status, visibleAfter and
processedAt but succeeds without error when the id is unknown, rejecting
only an empty id. -/
theorem UpdateJob_persisted_fields (jobs : List (Job T)) (job stored : Job T)
    (hmem : stored ∈ jobs) (hid : stored.id = job.id) (hne : ¬ job.id = "") :
    (∃ jobs2, MemoryStore.UpdateJob jobs job = Except.ok jobs2 ∧
      { stored with status := job.status, processedAt := job.processedAt } ∈ jobs2) ∧
    (∃ docs2, MongoStore.UpdateJob jobs job = Except.ok docs2 ∧
      { stored with status := job.status, visibleAfter := job.visibleAfter,
                      processedAt := job.processedAt } ∈ docs2) ∧
    ∀ jobs3 : List (Job T), (∀ e ∈ jobs3, ¬ e.id = job.id) →
      MemoryStore.UpdateJob jobs3 job =
        Except.error ("job not found: " ++ job.id) ∧
      MongoStore.UpdateJob jobs3 job = Except.ok jobs3 := by
  refine ⟨?_, ?_, ?_⟩
  · have hany : (jobs.any fun e => e.id == job.id) = true :=
      List.any_eq_true.mpr ⟨stored, hmem, by simp [hid]⟩
    rw [MemoryStore.UpdateJob, if_pos hany]
    refine ⟨_, rfl, ?_⟩
    have hf := List.mem_map_of_mem
      (fun e : Job T =>
        if e.id = job.id then
          { e with status := job.status, processedAt := job.processedAt }
        else e) hmem
    simpa [hid] using hf
  · rw [MongoStore.UpdateJob, if_neg hne]
    refine ⟨_, rfl, ?_⟩
    have hf := List.mem_map_of_mem
      (fun d : Job T =>
        if d.id = job.id then
          { d with status := job.status, visibleAfter := job.visibleAfter,
                   processedAt := job.processedAt }
        else d) hmem
    simpa [hid] using hf
  · intro jobs3 h3
    constructor
    · have hany : (jobs3.any fun e => e.id == job.id) = false := by
        simp only [List.any_eq_false, beq_iff_eq]
        exact h3
      rw [MemoryStore.UpdateJob, hany]
      rfl
    · rw [MongoStore.UpdateJob, if_neg hne]
      congr 1
      have hmap : jobs3.map
          (fun d : Job T =>
            if d.id = job.id then
              { d with status := job.status, visibleAfter := job.visibleAfter,
                       processedAt := job.processedAt }
            else d) = jobs3.map id := by
        apply List.map_congr_left
        intro e he
        rw [if_neg (h3 e he)]
        rfl
      rw [hmap, List.map_id]

/-- Witness for C6 at a one-job store. -/
theorem UpdateJob_persisted_fields_witness :
    (∃ jobs2, MemoryStore.UpdateJob [storedJob] updatedJob = Except.ok jobs2 ∧
      { storedJob with status := updatedJob.status,
                         processedAt := updatedJob.processedAt } ∈ jobs2) ∧
    MemoryStore.UpdateJob ([] : List (Job Unit)) updatedJob =
      Except.error ("job not found: " ++ updatedJob.id) := by
  have h := UpdateJob_persisted_fields [storedJob] updatedJob storedJob
    (by decide) rfl (by decide)
  exact ⟨h.1, (h.2.2 [] (by intro e he; cases he)).1⟩

/-! ## Claims about shutdown -/

/-- The shutdown drain loop leaves the channel empty. -/
theorem Scheduler.shutdownDrain_fst (S : List (Job T)) :
    (Scheduler.shutdownDrain S).1 = [] := by
  induction S with
  | nil => rfl
  | cons a rest ih => simp [Scheduler.shutdownDrain, ih]

/-- The worker loops leave the channel empty. -/
theorem Scheduler.workerDrain_fst (now : Int) (handlerErr : Job T → Bool)
    (W : List (Job T)) : (Scheduler.workerDrain now handlerErr W).1 = [] := by
  induction W with
  | nil => rfl
  | cons a rest ih => simp [Scheduler.workerDrain, ih]

/-- For every job received by the shutdown drain loop, the loop emits a
lease-clear event and a persistence-attempt event for the cleared job. -/
theorem Scheduler.shutdownDrain_events (S : List (Job T)) (j : Job T)
    (hj : j ∈ S) :
    SchedulerEv.leaseCleared j.MakeVisible ∈ (Scheduler.shutdownDrain S).2 ∧
    SchedulerEv.updateAttempted j.MakeVisible ∈ (Scheduler.shutdownDrain S).2 := by
  induction S with
  | nil => cases hj
  | cons a rest ih =>
    rcases List.mem_cons.mp hj with h | h
    · rw [h]
      simp [Scheduler.shutdownDrain]
    · have h2 := ih h
      simp only [Scheduler.shutdownDrain, List.mem_cons]
      exact ⟨Or.inr (Or.inr h2.1), Or.inr (Or.inr h2.2)⟩

/-- C3: during shutdown, every queued job drained by the shutdown loop
rather than by a worker has its lease cleared (visibleAfter unset) and an
UpdateJob attempt made for it, and both events lie strictly before the
done signal, which is the last event of the run. -/
theorem Scheduler.shutdown_clears_drained_leases (workerCount : Nat)
    (now : Int) (handlerErr : Job T → Bool) (S W : List (Job T)) (j : Job T)
    (hj : j ∈ S) :
    ∃ pre, (Scheduler.shutdownRun workerCount now handlerErr S W).2 =
        pre ++ [SchedulerEv.doneClosed] ∧
      SchedulerEv.leaseCleared j.MakeVisible ∈ pre ∧
      SchedulerEv.updateAttempted j.MakeVisible ∈ pre ∧
      j.MakeVisible.visibleAfter = none := by
  refine ⟨SchedulerEv.chanClosed :: ((Scheduler.shutdownDrain S).2 ++
    ((Scheduler.workerDrain now handlerErr W).2 ++
      ((List.range workerCount).map SchedulerEv.workerExited ++
        [SchedulerEv.workersJoined]))), ?_, ?_, ?_, rfl⟩
  · simp [Scheduler.shutdownRun]
  · have h := (Scheduler.shutdownDrain_events S j hj).1
    simp only [List.mem_cons, List.mem_append]
    tauto
  · have h := (Scheduler.shutdownDrain_events S j hj).2
    simp only [List.mem_cons, List.mem_append]
    tauto

/-- A job left on the hand-off queue at cancellation. -/
def queuedJob : Job Unit :=
  { id := "q", status := "pending", processAfter := 0,
    visibleAfter := some 30, processedAt := none, payload := () }

/-- Witness for C3: two queued jobs at cancellation, one drained by the
shutdown loop. -/
theorem Scheduler.shutdown_clears_drained_leases_witness :
    ∃ pre, (Scheduler.shutdownRun 2 0 (fun _ => false) [queuedJob]
        [samplePendingJob]).2 = pre ++ [SchedulerEv.doneClosed] ∧
      SchedulerEv.leaseCleared queuedJob.MakeVisible ∈ pre ∧
      SchedulerEv.updateAttempted queuedJob.MakeVisible ∈ pre ∧
      queuedJob.MakeVisible.visibleAfter = none :=
  Scheduler.shutdown_clears_drained_leases 2 0 (fun _ => false) [queuedJob]
    [samplePendingJob] queuedJob (List.mem_singleton.mpr rfl)

/-- C8: when the done signal fires after cancellation, the hand-off queue
is closed and fully drained and every one of the workerCount workers has
exited — the channel-close event and all worker-exit events lie strictly
before the done event, which comes last. -/
theorem Scheduler.shutdown_drains_queue_and_workers (workerCount : Nat)
    (now : Int) (handlerErr : Job T → Bool) (S W : List (Job T)) :
    (Scheduler.shutdownRun workerCount now handlerErr S W).1 = [] ∧
    ∃ pre, (Scheduler.shutdownRun workerCount now handlerErr S W).2 =
        pre ++ [SchedulerEv.doneClosed] ∧
      SchedulerEv.chanClosed ∈ pre ∧
      ∀ i, i < workerCount → SchedulerEv.workerExited i ∈ pre := by
  refine ⟨?_, SchedulerEv.chanClosed :: ((Scheduler.shutdownDrain S).2 ++
    ((Scheduler.workerDrain now handlerErr W).2 ++
      ((List.range workerCount).map SchedulerEv.workerExited ++
        [SchedulerEv.workersJoined]))), ?_, ?_, ?_⟩
  · simp [Scheduler.shutdownRun, Scheduler.shutdownDrain_fst,
      Scheduler.workerDrain_fst]
  · simp [Scheduler.shutdownRun]
  · exact List.mem_cons_self _ _
  · intro i hi
    have h : SchedulerEv.workerExited i ∈
        (List.range workerCount).map (SchedulerEv.workerExited (T := T)) :=
      List.mem_map_of_mem _ (List.mem_range.mpr hi)
    simp only [List.mem_cons, List.mem_append]
    tauto

/-- Witness for C8: two workers, one job drained by the shutdown loop and
one by a worker; both workers exit before the done event. -/
theorem Scheduler.shutdown_drains_queue_and_workers_witness :
    (Scheduler.shutdownRun 2 0 (fun _ : Job Unit => false) [queuedJob]
      [samplePendingJob]).1 = [] ∧
    SchedulerEv.workerExited 1 ∈
      (Scheduler.shutdownRun 2 0 (fun _ : Job Unit => false) [queuedJob]
        [samplePendingJob]).2 := by
  obtain ⟨h1, pre, heq, hchan, hw⟩ :=
    Scheduler.shutdown_drains_queue_and_workers 2 0 (fun _ : Job Unit => false)
      [queuedJob] [samplePendingJob]
  refine ⟨h1, ?_⟩
  rw [heq]
  exact List.mem_append.mpr (Or.inl (hw 1 (by decide)))
